import Mathlib

/-!
Shallow embedding of the CPMG relaxation-dispersion core of the chemex
repository, covering:

* `chemex/experiments/cpmg/cpmg_profile.py` — the `CPMGProfile` class
  (scale fitting, profile calculation, bootstrap resampling);
* `chemex/experiments/cpmg/n_cw_0013/back_calculation.py` — the observable
  factory `make_calc_observable` with its two memoization layers;
* `chemex/fitting.py` — `run_fit` (driver control flow) and
  `find_independent_clusters` (cluster partitioner).

Python floats are modelled as elements of a linear ordered field `K`
(instantiated at `ℝ` in the analytic statements, and at `ℚ` wherever a
concrete witness has to be evaluated, so that everything stays
executable).  Matrix-valued computations (`scipy.linalg.expm` and the
kernels of `liouvillian.py`, which is not part of the sources) are never
evaluated by any claim considered here; where a claim touches them only
their identity or the shape of the composed pulse sequence matters, and
they are embedded symbolically.
-/

/-! ### CPMGProfile (cpmg_profile.py)

`CPMGProfile` owns one residue's series of points.  The attributes used by
`calculate_scale`, `calculate_profile` and `make_bs_profile` are the
parallel arrays `ncycs`, `val`, `err`, `tau_cp_list` and the memoized
unscaled-profile function `calculate_unscaled_profile_cached`, modelled as
the field `calcUnscaled` (a pure function of the mapped parameter values;
the short-name/long-name mapping of `calculate_profile` lines 69-72 is
absorbed into the parameter-assignment argument `ℕ → K`). -/

structure CPMGProfile (K : Type) where
  ncycs : List ℤ
  tau_cp_list : List K
  val : List K
  err : List K
  calcUnscaled : (ℕ → K) → List K

/-- Numerator of `calculate_scale` (cpmg_profile.py line 61):
`sum(cal * self.val / self.err ** 2)`, elementwise over aligned arrays. -/
def scaleNum {K : Type} [LinearOrderedField K] (val err cal : List K) : K :=
  ((cal.zip (val.zip err)).map (fun x => x.1 * x.2.1 / x.2.2 ^ 2)).sum

/-- Denominator of `calculate_scale` (cpmg_profile.py line 62):
`sum((cal / self.err) ** 2)`, elementwise over aligned arrays. -/
def scaleDen {K : Type} [LinearOrderedField K] (err cal : List K) : K :=
  ((cal.zip err).map (fun x => (x.1 / x.2) ^ 2)).sum

/-- `CPMGProfile.calculate_scale` (cpmg_profile.py lines 58-65). -/
def calculate_scale {K : Type} [LinearOrderedField K]
    (p : CPMGProfile K) (cal : List K) : K :=
  scaleNum p.val p.err cal / scaleDen p.err cal

/-- `CPMGProfile.calculate_profile` (cpmg_profile.py lines 67-77): compute
the unscaled curve through the cached observable function, then return
`values * scale` elementwise. -/
def calculate_profile {K : Type} [LinearOrderedField K]
    (p : CPMGProfile K) (params : ℕ → K) : List K :=
  (p.calcUnscaled params).map
    (fun v => v * calculate_scale p (p.calcUnscaled params))

/-- Weighted residual sum of squares `Σ ((s*cal_i - val_i) / err_i) ^ 2`
between the scaled predicted curve and the measured curve; the quantity
that the weighted-least-squares scale factor of `calculate_scale` is
meant to minimize over `s`. -/
def weightedRSS {K : Type} [LinearOrderedField K]
    (val err cal : List K) (s : K) : K :=
  ((cal.zip (val.zip err)).map (fun x => ((s * x.1 - x.2.1) / x.2.2) ^ 2)).sum

/-- Constant term `Σ (val_i / err_i) ^ 2` of the quadratic expansion of
`weightedRSS` in `s`. -/
def rssConst {K : Type} [LinearOrderedField K] (val err cal : List K) : K :=
  ((cal.zip (val.zip err)).map (fun x => (x.2.1 / x.2.2) ^ 2)).sum

/-- The transformation "multiply all measured intensities and all
uncertainties by `c`" on a profile; the predicted-curve machinery
(`calcUnscaled`) is untouched, mirroring that
`calculate_unscaled_profile` reads neither `self.val` nor `self.err`. -/
def scaleData {K : Type} [LinearOrderedField K]
    (c : K) (p : CPMGProfile K) : CPMGProfile K :=
  { p with val := p.val.map (fun v => c * v), err := p.err.map (fun e => c * e) }

/-! ### Observable factory (back_calculation.py lines 156-174)

`calc_observable(i0=0.0, **kwargs)` returns `i0 * _calc_observable(**kwargs)`.
The internal propagator-chain value `_calc_observable(**kwargs)` (the
major-state longitudinal magnetization `magz_a` of line 154) is abstracted
as the argument `obs`, since its matrix kernels live in `liouvillian.py`,
which is not among the sources; only the outer multiplication by `i0` and
the default value of `i0` decide the claims about this function. -/

/-- Line 172 of back_calculation.py: `return i0 * _calc_observable(**kwargs)`. -/
def calc_observable {K : Type} [LinearOrderedField K] (obs : K) (i0 : K) : K :=
  i0 * obs

/-- The default of the keyword argument `i0` in
`def calc_observable(i0=0.0, **kwargs)` (back_calculation.py line 156). -/
def default_i0 {K : Type} [LinearOrderedField K] : K := 0

/-! ### Bootstrap resampling (cpmg_profile.py lines 134-155)

`make_bs_profile` splits the point indexes into the reference pool
(`self.reference`, i.e. `ncycs == 0`) and the non-reference pool, draws
with replacement from each pool (the reference pool only when it is
non-empty), sorts the drawn indexes ascending (`sorted(bs_indexes)`), and
re-indexes the four parallel arrays of a deep copy.  The randomness of
`np.random.choice(pool, len(pool))` is supplied by the oracle `choice`;
the theorems constrain it to produce `len(pool)` values drawn from
`pool`. -/

/-- `indexes[self.reference]` (cpmg_profile.py line 137): the positions
whose cycle count is zero. -/
def bsPool1 {K : Type} (p : CPMGProfile K) : List ℕ :=
  (List.range p.val.length).filter (fun i => p.ncycs.getD i 0 == 0)

/-- `indexes[np.logical_not(self.reference)]` (cpmg_profile.py line 138):
the positions whose cycle count is non-zero. -/
def bsPool2 {K : Type} (p : CPMGProfile K) : List ℕ :=
  (List.range p.val.length).filter (fun i => !(p.ncycs.getD i 0 == 0))

/-- `CPMGProfile.make_bs_profile` (cpmg_profile.py lines 134-155).
`List.insertionSort` plays the role of Python's `sorted` on the drawn
indexes; the deep copy with the fresh cache of line 153 is the structure
update (the `calcUnscaled` function is carried over unchanged). -/
def make_bs_profile {K : Type} [LinearOrderedField K] (p : CPMGProfile K)
    (choice : List ℕ → ℕ → List ℕ) : CPMGProfile K :=
  let pool1 := bsPool1 p
  let pool2 := bsPool2 p
  let bs := (if pool1.length ≠ 0 then choice pool1 pool1.length else [])
      ++ choice pool2 pool2.length
  let bsS := List.insertionSort (· ≤ ·) bs
  { p with
    ncycs := bsS.map (fun i => p.ncycs.getD i 0),
    tau_cp_list := bsS.map (fun i => p.tau_cp_list.getD i 0),
    val := bsS.map (fun i => p.val.getD i 0),
    err := bsS.map (fun i => p.err.getD i 0) }

/-! ### The two memoization layers (back_calculation.py lines 19, 43, 69)

`_calc_observable` is wrapped in `lru_cache(100)` and is keyed on all of
its arguments `(pb, kex, dw, r_nxy, dr_nxy, r_nz, cs, ncyc)`.  Inside it,
`make_propagators` is wrapped in `lru_cache(1)` and is keyed on the
arguments it receives at line 106: the exchange parameters with `dw`
already converted to rad/s (`dw *= ppm_to_rads`, line 103) and
`cs_offset = (cs - carrier) * ppm_to_rads` (line 104).  The `lru_cache`
implementation itself lives in `chemex/caching.py`, which is not among
the sources; it is modelled from the spec: a least-recently-used cache of
the stated capacity keyed on the exact argument values.  Matrix values
are irrelevant to the cache claims, so an evaluation is modelled by the
effect on the two key stores plus the Boolean "the matrix exponentials of
`make_propagators` were recomputed". -/

/-- The argument tuple of one `_calc_observable` call; the key of the
outer (capacity-100) cache. -/
structure ObsArgs where
  pb : ℚ
  kex : ℚ
  dw : ℚ
  r_nxy : ℚ
  dr_nxy : ℚ
  r_nz : ℚ
  cs : ℚ
  ncyc : ℤ
deriving DecidableEq

/-- The closure constants of `make_calc_observable`
(back_calculation.py line 20) that enter the cache keys. -/
structure ObsConfig where
  pw : ℚ
  time_t2 : ℚ
  time_equil : ℚ
  ncyc_max : ℤ
  ppm_to_rads : ℚ
  carrier : ℚ

/-- The argument tuple with which `make_propagators` is invoked at
line 106; the key of the inner (capacity-1) cache. -/
structure PropKey where
  pb : ℚ
  kex : ℚ
  dw : ℚ
  r_nxy : ℚ
  dr_nxy : ℚ
  r_nz : ℚ
  cs_offset : ℚ
deriving DecidableEq

/-- Lines 103-106 of back_calculation.py: the unit conversions applied
before `make_propagators` is called. -/
def propKey (cfg : ObsConfig) (a : ObsArgs) : PropKey :=
  { pb := a.pb, kex := a.kex, dw := a.dw * cfg.ppm_to_rads,
    r_nxy := a.r_nxy, dr_nxy := a.dr_nxy, r_nz := a.r_nz,
    cs_offset := (a.cs - cfg.carrier) * cfg.ppm_to_rads }

/-- State of the two caches: the key list of the outer `lru_cache(100)`
(most recently used first) and the single slot of the inner
`lru_cache(1)`. -/
structure CacheState where
  outer : List ObsArgs
  inner : Option PropKey
deriving DecidableEq

/-- Both caches start empty (a freshly built observable function). -/
def emptyCache : CacheState := ⟨[], none⟩

/-- One step of a least-recently-used key store of capacity `cap`: a hit
moves the key to the front, a miss inserts it in front and evicts beyond
the capacity. -/
def lruInsert (cap : ℕ) (k : ObsArgs) (l : List ObsArgs) : List ObsArgs :=
  (k :: l.erase k).take cap

/-- One `_calc_observable` evaluation: on an outer hit nothing is
computed; on an outer miss the body runs and `make_propagators` is
consulted — an inner hit returns the cached propagator bundle, an inner
miss recomputes the matrix exponentials (the returned Boolean). -/
def obsStep (cfg : ObsConfig) (st : CacheState) (a : ObsArgs) :
    CacheState × Bool :=
  if a ∈ st.outer then
    ({ st with outer := lruInsert 100 a st.outer }, false)
  else
    let k := propKey cfg a
    if st.inner = some k then
      ({ outer := lruInsert 100 a st.outer, inner := st.inner }, false)
    else
      ({ outer := lruInsert 100 a st.outer, inner := some k }, true)

/-- The per-evaluation recompute flags of a sequence of
`_calc_observable` calls starting from cache state `st`. -/
def obsTrace (cfg : ObsConfig) (st : CacheState) : List ObsArgs → List Bool
  | [] => []
  | a :: rest =>
    let r := obsStep cfg st a
    r.2 :: obsTrace cfg r.1 rest

/-! ### Pulse-sequence composition (back_calculation.py lines 110-150)

`_calc_observable` selects the composed propagator chain by branching
first on whether `fh_flg` contains `'y'` (line 119; modelled as the
Boolean `fhY`) and then on `ncyc == 0` (lines 120 and 131).  The chain is
embedded symbolically: each constructor of `PFactor` names one propagator
of the bundle built by `make_propagators` (or one derived block), and a
magnetization expression is the list of factors applied right-to-left to
`mag_eq` exactly as in the `reduce(dot, [...])` calls, possibly averaged
over the two phase cycles (`mag = (mag1+mag2)/2.0`, line 150). -/

/-- RF phase of a pulse propagator: `p_90px/p_180px` etc. -/
inductive Phase where
  | px
  | py
  | mx
  | my
deriving DecidableEq

/-- One factor of a composed propagator chain. -/
inductive PFactor where
  /-- `p_equil = expm(l_free * time_equil)` -/
  | equil
  /-- `p_pos = expm(l_free * 2.0 * pw / pi)` -/
  | pos
  /-- `p_neg = expm(l_free * -2.0 * pw / pi)` -/
  | neg
  /-- a 90-degree pulse propagator of the given phase -/
  | p90 (ph : Phase)
  /-- a 180-degree pulse propagator of the given phase -/
  | p180 (ph : Phase)
  /-- `p_180pmy = (p_180py + p_180my)/2.0` -/
  | p180pmy
  /-- `matrix_power(p_free_pw, n)` with `p_free_pw = expm(l_free * pw)` -/
  | freePw (n : ℤ)
  /-- the refocusing train of the `fh_flg` branch (line 125):
  `matrix_power(p_free.dot(p_180px).dot(p_free), ncyc)` -/
  | cpPow (ncyc : ℤ)
  /-- the refocusing train of the standard branch (lines 141-143): the
  loop product of blocks `p_free · p_180s[phase] · p_free`, one list
  entry per loop iteration `m`, in iteration order -/
  | cpSeq (phases : List Phase)
deriving DecidableEq

/-- A magnetization expression: a factor chain applied to `mag_eq`, or
the arithmetic mean of the two phase-cycle variants. -/
inductive MagExpr where
  | chain (factors : List PFactor)
  | avg (m1 m2 : MagExpr)
deriving DecidableEq

/-- `phase_1` (back_calculation.py line 112). -/
def phaseTable1 : List ℕ := [0, 0, 1, 3, 0, 0, 3, 1, 0, 0, 3, 1, 0, 0, 1, 3]

/-- `phase_2` (back_calculation.py line 113). -/
def phaseTable2 : List ℕ := [1, 3, 2, 2, 3, 1, 2, 2, 3, 1, 2, 2, 1, 3, 2, 2]

/-- `p_180s = [p_180px, p_180py, p_180mx, p_180my]` (line 114): the phase
selected by a table entry. -/
def p180Of : ℕ → Phase
  | 0 => Phase.px
  | 1 => Phase.py
  | 2 => Phase.mx
  | _ => Phase.my

/-- The phase sequence of the loop `for m in range(ncyc*2)` (line 141)
under the given phase table; empty when `ncyc ≤ 0`, as Python's `range`
is. -/
def cpPhases (tbl : List ℕ) (ncyc : ℤ) : List Phase :=
  (List.range (2 * ncyc).toNat).map (fun m => p180Of (tbl.getD (m % tbl.length) 0))

/-- The branch structure of `_calc_observable` (lines 119-150): which
propagator chain is composed, as a function of the factory constants
`fhY` (whether `fh_flg` contains `'y'`) and `ncyc_max`, and of the
per-call cycle count `ncyc`.  No fit parameter enters the branch
conditions. -/
def buildMag (fhY : Bool) (ncyc_max : ℤ) (ncyc : ℤ) : MagExpr :=
  if fhY then
    if ncyc = 0 then
      MagExpr.chain [PFactor.equil, PFactor.p90 Phase.py, PFactor.p180pmy,
        PFactor.p90 Phase.py]
    else
      MagExpr.chain [PFactor.equil, PFactor.p90 Phase.py, PFactor.neg,
        PFactor.cpPow ncyc, PFactor.p180pmy, PFactor.cpPow ncyc, PFactor.neg,
        PFactor.p90 Phase.py]
  else
    if ncyc = 0 then
      MagExpr.avg
        (MagExpr.chain [PFactor.equil, PFactor.freePw (ncyc_max - 1),
          PFactor.p90 Phase.my, PFactor.p180 Phase.px, PFactor.pos, PFactor.pos,
          PFactor.p180 Phase.px, PFactor.p90 Phase.py])
        (MagExpr.chain [PFactor.equil, PFactor.freePw (ncyc_max - 1),
          PFactor.p90 Phase.my, PFactor.p180 Phase.my, PFactor.pos, PFactor.pos,
          PFactor.p180 Phase.py, PFactor.p90 Phase.py])
    else
      MagExpr.avg
        (MagExpr.chain [PFactor.equil, PFactor.freePw (ncyc_max - ncyc),
          PFactor.p90 Phase.my, PFactor.neg, PFactor.cpSeq (cpPhases phaseTable1 ncyc),
          PFactor.neg, PFactor.p90 Phase.py])
        (MagExpr.chain [PFactor.equil, PFactor.freePw (ncyc_max - ncyc),
          PFactor.p90 Phase.my, PFactor.neg, PFactor.cpSeq (cpPhases phaseTable2 ncyc),
          PFactor.neg, PFactor.p90 Phase.py])

/-- The reference-point chain of the given branch family: the `ncyc == 0`
arms of lines 120-121 and 131-135, which contain no refocusing train. -/
def refMag (fhY : Bool) (ncyc_max : ℤ) : MagExpr :=
  if fhY then
    MagExpr.chain [PFactor.equil, PFactor.p90 Phase.py, PFactor.p180pmy,
      PFactor.p90 Phase.py]
  else
    MagExpr.avg
      (MagExpr.chain [PFactor.equil, PFactor.freePw (ncyc_max - 1),
        PFactor.p90 Phase.my, PFactor.p180 Phase.px, PFactor.pos, PFactor.pos,
        PFactor.p180 Phase.px, PFactor.p90 Phase.py])
      (MagExpr.chain [PFactor.equil, PFactor.freePw (ncyc_max - 1),
        PFactor.p90 Phase.my, PFactor.p180 Phase.my, PFactor.pos, PFactor.pos,
        PFactor.p180 Phase.py, PFactor.p90 Phase.py])

/-- Whether a factor is a refocusing train (either branch's form). -/
def PFactor.isTrain : PFactor → Bool
  | PFactor.cpPow _ => true
  | PFactor.cpSeq _ => true
  | _ => false

/-- Whether a magnetization expression contains a refocusing train, i.e.
was produced by the general CPMG formula rather than the reference-point
formula. -/
def MagExpr.hasTrain : MagExpr → Bool
  | MagExpr.chain fs => fs.any PFactor.isTrain
  | MagExpr.avg m1 m2 => m1.hasTrain || m2.hasTrain

/-! ### Cluster partitioner (fitting.py lines 97-155)

Parameter names are modelled as natural numbers; a profile enters the
partitioner only through its ordered parameter-name list
(`profile.params.keys()`), and the global parameter set through the
`vary`/`expr` status of each name.  The first loop (lines 107-128) is a
streaming first-match construction: a profile is merged into the first
existing cluster whose set of varying, non-expression parameter names
intersects its own, and otherwise starts a new cluster.  The second loop
(lines 130-153) builds each cluster's display label by repeatedly
`pop`-ping the cluster's free-name set — `set.pop()` on an empty set
raises `KeyError` — and assembles the cluster's `lmfit.Parameters`
subset.  The label value itself is computed by
`parameters.ParameterName.from_full_name(...).intersection(...)` from
`chemex/parameters.py`, which is not among the sources; the label is
dropped here (the final `sorted(clusters_)` of line 155 only permutes the
clusters by label and does not change any cluster's membership), but the
`KeyError` condition — the free-name set being empty — is kept. -/

/-- Status flags of one global parameter: `params[name].vary` and whether
`params[name].expr` is a non-empty expression string. -/
structure ParamStatus where
  vary : Bool
  expr : Bool

/-- A profile as seen by the partitioner: an identifier and its ordered
parameter-name list (`profile.params.keys()`). -/
structure FitProfile where
  id : ℕ
  pnames : List ℕ
deriving DecidableEq

/-- Lines 109-112 of fitting.py: the set of varying, non-expression
parameter names of one profile. -/
def freeNames (params : ℕ → ParamStatus) (p : FitProfile) : Finset ℕ :=
  (p.pnames.filter (fun n => (params n).vary && !(params n).expr)).toFinset

/-- One cluster of the first loop: the triple
`(data_cluster, pnames_cluster, pnames_vary_cluster)`. -/
structure Cluster where
  profiles : List FitProfile
  pnames : List ℕ
  vary : Finset ℕ

/-- Lines 114-128 of fitting.py: place one profile, merging it into the
first cluster whose free-name set intersects its own
(`pnames_vary & pnames_vary_cluster`), else appending a fresh cluster.
(The real loop appends the new cluster at the end of the list; placing
one profile touches at most one cluster either way.) -/
def insertProfile (params : ℕ → ParamStatus) (p : FitProfile) :
    List Cluster → List Cluster
  | [] => [⟨[p], p.pnames, freeNames params p⟩]
  | c :: rest =>
    if (freeNames params p ∩ c.vary).Nonempty then
      { profiles := c.profiles ++ [p], pnames := c.pnames ++ p.pnames,
        vary := c.vary ∪ freeNames params p } :: rest
    else
      c :: insertProfile params p rest

/-- The whole first loop of `find_independent_clusters` (lines 105-128):
stream the profiles in dataset order into the growing cluster list. -/
def buildClusters (params : ℕ → ParamStatus) (data : List FitProfile) :
    List Cluster :=
  data.foldl (fun cs p => insertProfile params p cs) []

/-- The second loop of `find_independent_clusters` (lines 130-153): for
each cluster the label is seeded by `pnames_vary_cluster.pop()`, which
raises `KeyError` on an empty set; otherwise the cluster survives (its
label and parameter subset omitted, see the section comment). -/
def labelClusters : List Cluster → Except Unit (List Cluster)
  | [] => Except.ok []
  | c :: rest =>
    if c.vary.Nonempty then
      (labelClusters rest).map (fun l => c :: l)
    else
      Except.error ()

/-- `find_independent_clusters` (fitting.py lines 97-155), up to the
final label-sorting permutation: `Except.error ()` is the uncaught
`KeyError` of `set.pop()`. -/
def find_independent_clusters (params : ℕ → ParamStatus)
    (data : List FitProfile) : Except Unit (List Cluster) :=
  labelClusters (buildClusters params data)

/-- Whether two profiles were placed in the same cluster. -/
def inSameCluster (cs : List Cluster) (p q : FitProfile) : Bool :=
  cs.any (fun c => decide (p ∈ c.profiles) && decide (q ∈ c.profiles))

/-! ### Fit driver control flow (fitting.py lines 27-94)

`run_fit` loops over the configuration sections; inside a section it
loops over the clusters, minimizing each; a `KeyboardInterrupt` raised
during a cluster's minimization is caught (lines 68-72), one extra
`minimize(params=c_minimizer.result.params, maxfev=1)` call is made at
the best parameters found so far, and the loop then proceeds to the next
cluster; after the cluster loop, a section with more than one cluster
performs one global `maxfev=1` evaluation (lines 79-83).  The external
minimizer is a black box, so a run is modelled by its event trace, with
the oracle `intr` saying which (section, cluster) minimizations are hit
by a `KeyboardInterrupt`. -/

/-- Events of one `run_fit` call.  `minimizeEv s c` is the
`c_minimizer.minimize(method=fitmethod)` call for cluster `c` of section
`s` (line 64 or 66); `recoverEv s c` is the salvage
`minimize(params=..., maxfev=1)` call of lines 70-72; `globalEv s` is the
whole-dataset `maxfev=1` evaluation of line 82. -/
inductive FitEvent where
  | minimizeEv (s c : ℕ)
  | recoverEv (s c : ℕ)
  | globalEv (s : ℕ)
deriving DecidableEq

/-- The cluster loop of one section (fitting.py lines 53-77): every
cluster is minimized; an interrupted minimization is followed
immediately by exactly one recovery evaluation, and the loop continues
either way. -/
def runClusters (intr : ℕ → ℕ → Bool) (s : ℕ) : List ℕ → List FitEvent
  | [] => []
  | c :: rest =>
    (if intr s c then [FitEvent.minimizeEv s c, FitEvent.recoverEv s c]
     else [FitEvent.minimizeEv s c]) ++ runClusters intr s rest

/-- The section loop of `run_fit` (fitting.py lines 36-88), with `s` the
index of the current section and each section given by its cluster-id
list. -/
def runSections (intr : ℕ → ℕ → Bool) : ℕ → List (List ℕ) → List FitEvent
  | _, [] => []
  | s, cl :: rest =>
    (runClusters intr s cl ++ (if 1 < cl.length then [FitEvent.globalEv s] else []))
      ++ runSections intr (s + 1) rest

/-- The event trace of `run_fit` (fitting.py lines 27-94) over the given
fit-configuration sections with the given interruption pattern. -/
def run_fit (sections : List (List ℕ)) (intr : ℕ → ℕ → Bool) : List FitEvent :=
  runSections intr 0 sections

/-- The property claimed of the driver: once some cluster's minimization
has been interrupted (so that a recovery evaluation appears in the
trace), no later event is a cluster minimization — i.e. the fit
terminates after salvaging the interrupted cluster. -/
def noMinimizeAfterRecover (tr : List FitEvent) : Prop :=
  ∀ i j, (hi : i < tr.length) → (hj : j < tr.length) → i < j →
    (∃ s c, tr.get ⟨i, hi⟩ = FitEvent.recoverEv s c) →
    ∀ s' c', tr.get ⟨j, hj⟩ ≠ FitEvent.minimizeEv s' c'

/-- Whether an event is the minimization of a cluster. -/
def isMinimizeEv : FitEvent → Bool
  | FitEvent.minimizeEv _ _ => true
  | _ => false

/-! ### Concrete inputs used by counterexamples and witnesses -/

/-- An interruption pattern: the very first cluster of the first section
is hit by a `KeyboardInterrupt`, nothing else is. -/
def exIntr : ℕ → ℕ → Bool := fun s c => s == 0 && c == 0

/-- A factory configuration with `ppm_to_rads = 1` and `carrier = 0`. -/
def cfgEx : ObsConfig := ⟨0, 1, 0, 10, 1, 0⟩

/-- A concrete evaluation argument tuple (exchange parameters close to
the code's defaults at back_calculation.py line 70). -/
def obsArgsA : ObsArgs := ⟨0, 0, 0, 5, 0, 2, 0, 0⟩

/-- The same evaluation with only the per-residue chemical shift `cs`
changed. -/
def obsArgsB : ObsArgs := { obsArgsA with cs := 1 }

/-- A three-point profile whose cycle counts are not sorted:
a non-reference, a reference, a non-reference point. -/
def bsProfileEx : CPMGProfile ℚ :=
  ⟨[4, 0, 2], [0, 0, 0], [1, 1, 1], [1, 1, 1], fun _ => []⟩

/-- A draw oracle that returns the pool itself: the bootstrap draw that
picks every index exactly once (a legitimate with-replacement draw). -/
def choiceIdentity : List ℕ → ℕ → List ℕ := fun pool _ => pool

/-- A three-point profile with sorted cycle counts (one reference,
two non-reference points). -/
def bsProfileSorted : CPMGProfile ℚ :=
  ⟨[0, 2, 4], [0, 0, 0], [1, 1, 1], [1, 1, 1], fun _ => []⟩

/-- A parameter set in which every name is varying and expression-free. -/
def varyAll : ℕ → ParamStatus := fun _ => ⟨true, false⟩

/-- A profile referencing parameter 0 only. -/
def profA : FitProfile := ⟨0, [0]⟩

/-- A profile referencing parameter 1 only. -/
def profB : FitProfile := ⟨1, [1]⟩

/-- A profile referencing parameters 0 and 1: it bridges `profA` and
`profB`. -/
def profC : FitProfile := ⟨2, [0, 1]⟩

/-- A two-point profile over the reals (one reference point, one
non-reference point), used to instantiate the least-squares theorems. -/
def profileExR : CPMGProfile ℝ :=
  ⟨[0, 2], [0, 0], [1, 2], [1, 1], fun _ => [1, 1]⟩

/-! ## Theorems -/

/-- C3 counterexample: at an internal propagator-chain value of `1`, the
observable function called without `i0` (i.e. at its default `i0 = 0.0`)
returns `0`, not the internal value: the default behaviour corresponds to
`i0 = 0`, not `i0 = 1`. -/
theorem calc_observable_default_cex :
    calc_observable (1 : ℝ) default_i0 = 0 ∧ (0 : ℝ) ≠ 1 := by
  constructor
  · simp [calc_observable, default_i0]
  · norm_num

/-- C3 (amended): the public observable function returns `i0` times the
internal propagator-chain value; its default `i0` is `0.0`, so calling it
without specifying `i0` returns `0`, and the unscaled internal value is
obtained exactly by passing `i0 = 1` (scaling by a genuine initial
intensity being the caller's job). -/
theorem calc_observable_i0_scaling (obs : ℝ) :
    calc_observable obs default_i0 = 0 ∧ calc_observable obs 1 = obs := by
  constructor
  · simp [calc_observable, default_i0]
  · simp [calc_observable]

/-- C1 counterexample: with two clusters in one section and the first
cluster's minimization interrupted, the driver performs the recovery
evaluation for cluster 0 and then still minimizes cluster 1 (and runs the
section's global evaluation): the fit does not terminate after the
interrupted cluster. -/
theorem run_fit_interrupt_cex :
    exIntr 0 0 = true ∧
    run_fit [[0, 1]] exIntr =
      [FitEvent.minimizeEv 0 0, FitEvent.recoverEv 0 0, FitEvent.minimizeEv 0 1,
        FitEvent.globalEv 0] ∧
    ¬ noMinimizeAfterRecover (run_fit [[0, 1]] exIntr) := by
  refine ⟨rfl, by decide, fun h => ?_⟩
  exact h 1 2 (by decide) (by decide) (by decide) ⟨0, 0, by decide⟩ 0 1 (by decide)

/-- The cluster loop minimizes every cluster of its list exactly once, in
order, whatever the interruption pattern. -/
theorem runClusters_filter_minimize (intr : ℕ → ℕ → Bool) (s : ℕ)
    (cl : List ℕ) :
    (runClusters intr s cl).filter isMinimizeEv
      = cl.map (FitEvent.minimizeEv s) := by
  induction cl with
  | nil => rfl
  | cons c rest ih =>
    by_cases h : intr s c = true <;>
      simp [runClusters, h, List.filter_append, isMinimizeEv, ih]

/-- The cluster loop issues exactly one minimization per occurrence of a
cluster in its list, whatever the interruption pattern. -/
theorem runClusters_count_minimize (intr : ℕ → ℕ → Bool) (s c : ℕ)
    (cl : List ℕ) :
    (runClusters intr s cl).count (FitEvent.minimizeEv s c) = cl.count c := by
  induction cl with
  | nil => rfl
  | cons c' rest ih =>
    rcases eq_or_ne c' c with rfl | hc
    · by_cases hi : intr s c' = true <;>
        simp [runClusters, hi, List.count_append, List.count_cons, ih]
    · by_cases hi : intr s c' = true <;>
        simp [runClusters, hi, hc, Ne.symm hc, List.count_append,
          List.count_cons, ih]

/-- The cluster loop issues exactly one recovery evaluation per occurrence
of an interrupted cluster, and none for uninterrupted ones. -/
theorem runClusters_count_recover (intr : ℕ → ℕ → Bool) (s c : ℕ)
    (cl : List ℕ) :
    (runClusters intr s cl).count (FitEvent.recoverEv s c)
      = (if intr s c then cl.count c else 0) := by
  induction cl with
  | nil => simp [runClusters]
  | cons c' rest ih =>
    rcases eq_or_ne c' c with rfl | hc
    · by_cases hi : intr s c' = true <;>
        simp [runClusters, hi, List.count_append, List.count_cons, ih]
    · by_cases hi : intr s c' = true <;>
        simp [runClusters, hi, hc, Ne.symm hc, List.count_append,
          List.count_cons, ih]

/-- C1 (amended): on interruption of a cluster's minimization the driver
performs exactly one additional `maxfev=1` recovery evaluation at the
best parameters found so far for that cluster, and then continues: the
sequence of cluster minimizations of the whole fit is the same as in an
uninterrupted run (no cluster of any section is skipped), each cluster is
minimized exactly once per occurrence, and a recovery evaluation appears
exactly for the interrupted clusters. -/
theorem run_fit_interrupt_continues (sections : List (List ℕ))
    (intr : ℕ → ℕ → Bool) (s c : ℕ) :
    (run_fit sections intr).filter isMinimizeEv
      = (run_fit sections (fun _ _ => false)).filter isMinimizeEv ∧
    (runClusters intr s (sections.getD s [])).count (FitEvent.minimizeEv s c)
      = (sections.getD s []).count c ∧
    (runClusters intr s (sections.getD s [])).count (FitEvent.recoverEv s c)
      = (if intr s c then (sections.getD s []).count c else 0) := by
  refine ⟨?_, runClusters_count_minimize intr s c _,
    runClusters_count_recover intr s c _⟩
  show (runSections intr 0 sections).filter isMinimizeEv
    = (runSections (fun _ _ => false) 0 sections).filter isMinimizeEv
  generalize 0 = s0
  induction sections generalizing s0 with
  | nil => rfl
  | cons cl rest ih =>
    by_cases h : 1 < cl.length <;>
      simp [runSections, h, List.filter_append, runClusters_filter_minimize,
        isMinimizeEv, ih]

/-- C8: at cycle count 0 the composed pulse sequence is the explicit
reference chain of the selected branch family, unconditionally (the
branch condition involves only `fh_flg` and `ncyc`, no fit parameter);
the reference chain contains no refocusing train, and for every non-zero
cycle count the composed sequence contains the refocusing train of the
general CPMG formula. -/
theorem ncyc_zero_reference_branch (fhY : Bool) (m ncyc : ℤ) :
    buildMag fhY m 0 = refMag fhY m ∧
    MagExpr.hasTrain (refMag fhY m) = false ∧
    (ncyc ≠ 0 → MagExpr.hasTrain (buildMag fhY m ncyc) = true) := by
  refine ⟨?_, ?_, fun h => ?_⟩
  · cases fhY <;> simp [buildMag, refMag]
  · cases fhY <;> simp [refMag, MagExpr.hasTrain, PFactor.isTrain]
  · cases fhY <;> simp [buildMag, h, MagExpr.hasTrain, PFactor.isTrain]

/-- C8 witness: concrete instance (standard branch, `ncyc_max = 3`)
of `ncyc_zero_reference_branch` at `ncyc = 2`. -/
theorem ncyc_zero_reference_branch_witness :
    buildMag false 3 0 = refMag false 3 ∧
    ((2 : ℤ) ≠ 0 ∧ MagExpr.hasTrain (buildMag false 3 2) = true) :=
  ⟨(ncyc_zero_reference_branch false 3 2).1,
    by decide, (ncyc_zero_reference_branch false 3 2).2.2 (by decide)⟩


/-- C2 counterexample: two consecutive evaluations from fresh caches that
agree on all exchange parameters and on the cycle count and differ only
in the per-residue chemical shift `cs` both recompute the matrix
exponentials: the inner cache key includes the offset derived from `cs`,
so the second evaluation does not reuse the cached propagator bundle. -/
theorem propagator_cache_cs_cex :
    obsArgsA.pb = obsArgsB.pb ∧ obsArgsA.kex = obsArgsB.kex ∧
    obsArgsA.dw = obsArgsB.dw ∧ obsArgsA.r_nxy = obsArgsB.r_nxy ∧
    obsArgsA.dr_nxy = obsArgsB.dr_nxy ∧ obsArgsA.r_nz = obsArgsB.r_nz ∧
    obsArgsA.ncyc = obsArgsB.ncyc ∧ obsArgsA.cs ≠ obsArgsB.cs ∧
    obsTrace cfgEx emptyCache [obsArgsA, obsArgsB] = [true, true] := by
  refine ⟨rfl, rfl, rfl, rfl, rfl, rfl, rfl, ?_, ?_⟩
  · simp [obsArgsA, obsArgsB]
  · have hmem : ¬ (obsArgsB = obsArgsA) := by simp [obsArgsA, obsArgsB]
    have hkey : ¬ (propKey cfgEx obsArgsA = propKey cfgEx obsArgsB) := by
      simp [propKey, cfgEx, obsArgsA, obsArgsB]
    simp [obsTrace, obsStep, emptyCache, lruInsert, hmem, hkey]

/-- C2 (amended): the inner propagator cache has capacity exactly 1 and
its key is the exchange-parameter tuple together with the resonance
offset `cs_offset = (cs - carrier) * ppm_to_rads` derived from the
per-residue chemical shift.  Consequently, for two consecutive
evaluations from fresh caches with all exchange parameters unchanged: if
the chemical shift is also unchanged (the evaluations differ at most in
the cycle count), the second evaluation reuses a cache and does not
recompute the matrix exponentials; if instead the chemical shift changes
by an amount that moves the offset, the second evaluation recomputes
them. -/
theorem propagator_cache_key (cfg : ObsConfig) (a1 a2 : ObsArgs)
    (hpb : a1.pb = a2.pb) (hkex : a1.kex = a2.kex) (hdw : a1.dw = a2.dw)
    (hrxy : a1.r_nxy = a2.r_nxy) (hdrxy : a1.dr_nxy = a2.dr_nxy)
    (hrz : a1.r_nz = a2.r_nz) :
    (a1.cs = a2.cs → obsTrace cfg emptyCache [a1, a2] = [true, false]) ∧
    ((a1.cs - a2.cs) * cfg.ppm_to_rads ≠ 0 →
      obsTrace cfg emptyCache [a1, a2] = [true, true]) := by
  constructor
  · intro hcs
    have hkey : propKey cfg a1 = propKey cfg a2 := by
      unfold propKey
      rw [hpb, hkex, hdw, hrxy, hdrxy, hrz, hcs]
    by_cases hn : a2 = a1
    · subst hn
      simp [obsTrace, obsStep, emptyCache, lruInsert]
    · simp [obsTrace, obsStep, emptyCache, lruInsert, hn, hkey]
  · intro hoff
    have hcs : a1.cs ≠ a2.cs := by
      intro h
      exact hoff (by rw [h, sub_self, zero_mul])
    have hn : ¬ (a2 = a1) := fun h => hcs (by rw [h])
    have hkey : ¬ (propKey cfg a1 = propKey cfg a2) := by
      intro h
      have h2 := congrArg PropKey.cs_offset h
      simp only [propKey] at h2
      exact hoff (by linear_combination h2)
    simp [obsTrace, obsStep, emptyCache, lruInsert, hn, hkey]

/-- C2 witness: concrete instance of `propagator_cache_key` — the first
two evaluations from fresh caches differ only in the cycle count, and
the second one does not recompute the propagators. -/
theorem propagator_cache_key_witness :
    obsArgsA.cs = ({ obsArgsA with ncyc := 7 } : ObsArgs).cs ∧
    obsTrace cfgEx emptyCache [obsArgsA, { obsArgsA with ncyc := 7 }]
      = [true, false] :=
  ⟨rfl, (propagator_cache_key cfgEx obsArgsA { obsArgsA with ncyc := 7 }
    rfl rfl rfl rfl rfl rfl).1 rfl⟩

/-- A cluster whose free-name set is empty makes `labelClusters` raise
the `KeyError` of `set.pop()`; otherwise every cluster survives. -/
theorem labelClusters_error_iff (cs : List Cluster) :
    labelClusters cs = Except.error () ↔ ∃ c ∈ cs, c.vary = ∅ := by
  induction cs with
  | nil => simp [labelClusters]
  | cons c rest ih =>
    by_cases h : c.vary.Nonempty
    · have hne : ¬ c.vary = ∅ := Finset.nonempty_iff_ne_empty.mp h
      cases hrest : labelClusters rest with
      | error e =>
        simp [labelClusters, h, hrest, Except.map, hne, ih.mp (by rw [hrest])]
      | ok l =>
        have : ¬ (∃ c ∈ rest, c.vary = ∅) := by
          rw [← ih, hrest]; simp
        simp [labelClusters, h, hrest, Except.map, hne, this]
    · have he : c.vary = ∅ := Finset.not_nonempty_iff_eq_empty.mp h
      simp [labelClusters, h, he]

/-- Inserting a profile with no free parameter always creates (or leaves)
a cluster with an empty free-name set: such a profile can never merge. -/
theorem insertProfile_empty_intro (params : ℕ → ParamStatus)
    (p : FitProfile) (hp : freeNames params p = ∅) (cs : List Cluster) :
    ∃ c ∈ insertProfile params p cs, c.vary = ∅ := by
  induction cs with
  | nil => exact ⟨⟨[p], p.pnames, freeNames params p⟩, by simp [insertProfile], hp⟩
  | cons c0 rest ih =>
    have hcond : ¬ (freeNames params p ∩ c0.vary).Nonempty := by
      simp [hp]
    obtain ⟨c, hc, hce⟩ := ih
    exact ⟨c, by simp [insertProfile, hcond, hc], hce⟩

/-- A cluster with an empty free-name set survives any later insertion:
no profile can merge into it. -/
theorem insertProfile_empty_persist (params : ℕ → ParamStatus)
    (p : FitProfile) (cs : List Cluster)
    (h : ∃ c ∈ cs, c.vary = ∅) :
    ∃ c ∈ insertProfile params p cs, c.vary = ∅ := by
  induction cs with
  | nil => simp at h
  | cons c0 rest ih =>
    obtain ⟨c, hc, hce⟩ := h
    rcases List.mem_cons.mp hc with rfl | hcr
    · have hcond : ¬ (freeNames params p ∩ c.vary).Nonempty := by
        simp [hce]
      refine ⟨c, ?_, hce⟩
      simp [insertProfile, hcond]
    · by_cases hcond : (freeNames params p ∩ c0.vary).Nonempty
      · exact ⟨c, by simp [insertProfile, hcond, hcr], hce⟩
      · obtain ⟨c', hc', hce'⟩ := ih ⟨c, hcr, hce⟩
        exact ⟨c', by simp [insertProfile, hcond, hc'], hce'⟩

/-- Conversely, an empty-free-set cluster after an insertion traces back
either to an existing one or to the inserted profile itself. -/
theorem insertProfile_empty_origin (params : ℕ → ParamStatus)
    (p : FitProfile) (cs : List Cluster) (c : Cluster)
    (hc : c ∈ insertProfile params p cs) (hce : c.vary = ∅) :
    (∃ c' ∈ cs, c'.vary = ∅) ∨ freeNames params p = ∅ := by
  induction cs with
  | nil =>
    right
    simp [insertProfile] at hc
    rw [hc] at hce
    exact hce
  | cons c0 rest ih =>
    by_cases hcond : (freeNames params p ∩ c0.vary).Nonempty
    · simp only [insertProfile, if_pos hcond] at hc
      rcases List.mem_cons.mp hc with rfl | hcr
      · left
        have h0 : c0.vary = ∅ := by
          have := hce
          simp only [Finset.union_eq_empty] at this
          exact this.1
        exact ⟨c0, List.mem_cons_self c0 rest, h0⟩
      · exact Or.inl ⟨c, List.mem_cons_of_mem c0 hcr, hce⟩
    · simp only [insertProfile, if_neg hcond] at hc
      rcases List.mem_cons.mp hc with rfl | hcr
      · exact Or.inl ⟨c, List.mem_cons_self c rest, hce⟩
      · rcases ih hcr with ⟨c', hc', hce'⟩ | h
        · exact Or.inl ⟨c', List.mem_cons_of_mem c0 hc', hce'⟩
        · exact Or.inr h

/-- Streaming version of `insertProfile_empty_origin` over a whole
dataset prefix. -/
theorem foldl_empty_origin (params : ℕ → ParamStatus) (l : List FitProfile)
    (acc : List Cluster) (c : Cluster)
    (hc : c ∈ l.foldl (fun cs p => insertProfile params p cs) acc)
    (hce : c.vary = ∅) :
    (∃ c' ∈ acc, c'.vary = ∅) ∨ ∃ p ∈ l, freeNames params p = ∅ := by
  induction l generalizing acc with
  | nil => exact Or.inl ⟨c, hc, hce⟩
  | cons p rest ih =>
    rcases ih (insertProfile params p acc) hc with h | h
    · obtain ⟨c', hc', hce'⟩ := h
      rcases insertProfile_empty_origin params p acc c' hc' hce' with h' | h'
      · exact Or.inl h'
      · exact Or.inr ⟨p, List.mem_cons_self p rest, h'⟩
    · obtain ⟨q, hq, hqe⟩ := h
      exact Or.inr ⟨q, List.mem_cons_of_mem p hq, hqe⟩

/-- Streaming version of `insertProfile_empty_persist`. -/
theorem foldl_empty_persist (params : ℕ → ParamStatus) (l : List FitProfile)
    (acc : List Cluster) (h : ∃ c ∈ acc, c.vary = ∅) :
    ∃ c ∈ l.foldl (fun cs q => insertProfile params q cs) acc, c.vary = ∅ := by
  induction l generalizing acc with
  | nil => exact h
  | cons r rest ih => exact ih _ (insertProfile_empty_persist params r acc h)

/-- Streaming version of `insertProfile_empty_intro`. -/
theorem foldl_empty_intro (params : ℕ → ParamStatus) (l : List FitProfile)
    (acc : List Cluster) (p : FitProfile) (hp : p ∈ l)
    (hpe : freeNames params p = ∅) :
    ∃ c ∈ l.foldl (fun cs q => insertProfile params q cs) acc, c.vary = ∅ := by
  induction l generalizing acc with
  | nil => simp at hp
  | cons q rest ih =>
    rcases List.mem_cons.mp hp with rfl | hpr
    · rw [List.foldl_cons]
      exact foldl_empty_persist params rest _
        (insertProfile_empty_intro params p hpe acc)
    · rw [List.foldl_cons]
      exact ih (insertProfile params q acc) hpr

/-- C9: `find_independent_clusters` raises `KeyError` (via `set.pop()` on
the empty free-name set of some cluster) precisely when some profile in
the dataset has an empty set of varying, non-expression-linked parameter
names; the partitioner terminates normally exactly when every profile
references at least one free parameter. -/
theorem find_independent_clusters_keyerror (params : ℕ → ParamStatus)
    (data : List FitProfile) :
    find_independent_clusters params data = Except.error () ↔
      ∃ p ∈ data, freeNames params p = ∅ := by
  rw [find_independent_clusters, labelClusters_error_iff]
  constructor
  · rintro ⟨c, hc, hce⟩
    rcases foldl_empty_origin params data [] c hc hce with ⟨c', hc', _⟩ | h
    · simp at hc'
    · exact h
  · rintro ⟨p, hp, hpe⟩
    exact foldl_empty_intro params data [] p hp hpe

/-- C7 counterexample: with every parameter varying and expression-free,
profile `profC` shares free parameter 1 with profile `profB`, yet the
partitioner places them in different clusters, because `profC` is merged
into the first matching cluster (the one of `profA`, sharing parameter
0): sharing a free parameter does not guarantee ending up in the same
cluster. -/
theorem cluster_sharing_cex :
    (freeNames varyAll profB ∩ freeNames varyAll profC).Nonempty ∧
    inSameCluster (buildClusters varyAll [profA, profB, profC]) profB profC
      = false := by
  constructor
  · decide
  · decide

/-- C7 (amended): in a dataset of exactly two distinct profiles the
partitioner behaves as claimed — the profiles land in the same cluster
precisely when they share at least one varying, non-expression parameter
(profiles whose only common parameters are fixed or expression-derived
get two distinct clusters).  For larger datasets the first-match merge
only guarantees this pairwise for the cluster actually matched: a
profile bridging two earlier clusters is merged into the first one only
(see the counterexample). -/
theorem two_profile_clustering (params : ℕ → ParamStatus)
    (p q : FitProfile) (hpq : p ≠ q) :
    inSameCluster (buildClusters params [p, q]) p q = true ↔
      (freeNames params p ∩ freeNames params q).Nonempty := by
  have hbuild : buildClusters params [p, q]
      = insertProfile params q [⟨[p], p.pnames, freeNames params p⟩] := rfl
  rw [hbuild]
  by_cases h : (freeNames params q ∩
      (⟨[p], p.pnames, freeNames params p⟩ : Cluster).vary).Nonempty
  · rw [insertProfile, if_pos h]
    simp only [Finset.inter_comm (freeNames params p)]
    simp [inSameCluster]
    exact h
  · rw [insertProfile, if_neg h, insertProfile]
    simp [inSameCluster, hpq, Ne.symm hpq]
    rw [Finset.inter_comm]
    exact Finset.not_nonempty_iff_eq_empty.mp h

/-- C7 witness: concrete instance of `two_profile_clustering` on the
two-profile dataset `[profA, profB]`. -/
theorem two_profile_clustering_witness :
    profA ≠ profB ∧
    (inSameCluster (buildClusters varyAll [profA, profB]) profA profB = true ↔
      (freeNames varyAll profA ∩ freeNames varyAll profB).Nonempty) :=
  ⟨by decide, two_profile_clustering varyAll profA profB (by decide)⟩

/-- Head expansion of `scaleNum` on aligned non-empty arrays. -/
theorem scaleNum_cons (v e c : ℝ) (vs es cs : List ℝ) :
    scaleNum (v :: vs) (e :: es) (c :: cs)
      = c * v / e ^ 2 + scaleNum vs es cs := by
  simp [scaleNum]

/-- Head expansion of `scaleDen` on aligned non-empty arrays. -/
theorem scaleDen_cons (e c : ℝ) (es cs : List ℝ) :
    scaleDen (e :: es) (c :: cs) = (c / e) ^ 2 + scaleDen es cs := by
  simp [scaleDen]

/-- Head expansion of `weightedRSS` on aligned non-empty arrays. -/
theorem weightedRSS_cons (v e c s : ℝ) (vs es cs : List ℝ) :
    weightedRSS (v :: vs) (e :: es) (c :: cs) s
      = ((s * c - v) / e) ^ 2 + weightedRSS vs es cs s := by
  simp [weightedRSS]

/-- Head expansion of `rssConst` on aligned non-empty arrays. -/
theorem rssConst_cons (v e c : ℝ) (vs es cs : List ℝ) :
    rssConst (v :: vs) (e :: es) (c :: cs)
      = (v / e) ^ 2 + rssConst vs es cs := by
  simp [rssConst]

/-- The scale denominator is a sum of squares, hence non-negative. -/
theorem scaleDen_nonneg (err cal : List ℝ) : 0 ≤ scaleDen err cal := by
  apply List.sum_nonneg
  intro x hx
  obtain ⟨y, _, rfl⟩ := List.mem_map.mp hx
  exact sq_nonneg _

/-- The weighted residual sum of squares is the quadratic
`scaleDen * s² - 2 * scaleNum * s + rssConst` in the scale `s`. -/
theorem rss_quadratic (cal val err : List ℝ) (s : ℝ)
    (hv : val.length = cal.length) (he : err.length = cal.length) :
    weightedRSS val err cal s
      = scaleDen err cal * s ^ 2 - 2 * scaleNum val err cal * s
        + rssConst val err cal := by
  induction cal generalizing val err with
  | nil =>
    cases val with
    | nil =>
      cases err with
      | nil => simp [weightedRSS, scaleDen, scaleNum, rssConst]
      | cons e es => simp at he
    | cons v vs => simp at hv
  | cons c cs ih =>
    cases val with
    | nil => simp at hv
    | cons v vs =>
      cases err with
      | nil => simp at he
      | cons e es =>
        have hv' : vs.length = cs.length := by simpa using hv
        have he' : es.length = cs.length := by simpa using he
        have hpoint : ((s * c - v) / e) ^ 2
            = (c / e) ^ 2 * s ^ 2 - 2 * (c * v / e ^ 2) * s + (v / e) ^ 2 := by
          rcases eq_or_ne e 0 with rfl | hne
          · simp
          · field_simp
            ring
        rw [weightedRSS_cons, scaleNum_cons, scaleDen_cons, rssConst_cons,
          ih vs es hv' he', hpoint]
        ring

/-- If the scale denominator vanishes on a curve with strictly positive
uncertainties, every predicted value is zero, so the numerator vanishes
as well. -/
theorem scaleNum_zero_of_den_zero (cal val err : List ℝ)
    (hv : val.length = cal.length) (he : err.length = cal.length)
    (herr : ∀ e ∈ err, 0 < e) (hden : scaleDen err cal = 0) :
    scaleNum val err cal = 0 := by
  induction cal generalizing val err with
  | nil =>
    cases val with
    | nil =>
      cases err with
      | nil => simp [scaleNum]
      | cons e es => simp at he
    | cons v vs => simp at hv
  | cons c cs ih =>
    cases val with
    | nil => simp at hv
    | cons v vs =>
      cases err with
      | nil => simp at he
      | cons e es =>
        have hv' : vs.length = cs.length := by simpa using hv
        have he' : es.length = cs.length := by simpa using he
        rw [scaleDen_cons] at hden
        have h1 : (c / e) ^ 2 = 0 ∧ scaleDen es cs = 0 := by
          constructor <;> nlinarith [sq_nonneg (c / e), scaleDen_nonneg es cs]
        have hepos : 0 < e := herr e (List.mem_cons_self e es)
        have hc0 : c = 0 := by
          have := pow_eq_zero_iff (n := 2) (by norm_num) |>.mp h1.1
          rcases div_eq_zero_iff.mp this with h | h
          · exact h
          · exact absurd h (ne_of_gt hepos)
        rw [scaleNum_cons, hc0,
          ih vs es hv' he' (fun x hx => herr x (List.mem_cons_of_mem e hx)) h1.2]
        simp

/-- C5: `calculate_scale` computes the weighted-least-squares scale
factor `Σ(cal·val/err²) / Σ((cal/err)²)`; over strictly positive
uncertainties this scale minimizes the weighted residual sum of squares
`Σ((s·cal - val)/err)²` over all real `s`, and `calculate_profile`
returns `scale · predicted` elementwise. -/
theorem calculate_scale_minimizes (p : CPMGProfile ℝ) (cal : List ℝ)
    (hv : p.val.length = cal.length) (he : p.err.length = cal.length)
    (herr : ∀ e ∈ p.err, 0 < e) :
    calculate_scale p cal = scaleNum p.val p.err cal / scaleDen p.err cal ∧
    (∀ s : ℝ, weightedRSS p.val p.err cal (calculate_scale p cal)
        ≤ weightedRSS p.val p.err cal s) ∧
    (∀ params, calculate_profile p params
        = (p.calcUnscaled params).map
            (fun v => v * calculate_scale p (p.calcUnscaled params))) := by
  refine ⟨rfl, ?_, fun _ => rfl⟩
  intro s
  rw [rss_quadratic cal p.val p.err _ hv he, rss_quadratic cal p.val p.err s hv he]
  have hscale : calculate_scale p cal
      = scaleNum p.val p.err cal / scaleDen p.err cal := rfl
  rw [hscale]
  set A := scaleDen p.err cal with hA
  set B := scaleNum p.val p.err cal with hB
  set C := rssConst p.val p.err cal with hC
  have hAnn : 0 ≤ A := scaleDen_nonneg p.err cal
  rcases eq_or_lt_of_le hAnn with hA0 | hApos
  · have hB0 : B = 0 :=
      scaleNum_zero_of_den_zero cal p.val p.err hv he herr hA0.symm
    rw [← hA0, hB0]
    simp
  · have hA' : A ≠ 0 := ne_of_gt hApos
    have e1 : A * (B / A) ^ 2 - 2 * B * (B / A) + C = C - B ^ 2 / A := by
      field_simp
      ring
    have e2 : A * s ^ 2 - 2 * B * s + C
        = (A * s - B) ^ 2 / A + (C - B ^ 2 / A) := by
      field_simp
      ring
    rw [e1, e2]
    have h3 : 0 ≤ (A * s - B) ^ 2 / A := div_nonneg (sq_nonneg _) hApos.le
    linarith

/-- C5 witness: concrete instance of `calculate_scale_minimizes` on the
two-point profile `profileExR` with predicted curve `[1, 1]`, compared
against the scale candidate `s = 0`. -/
theorem calculate_scale_minimizes_witness :
    profileExR.val.length = ([1, 1] : List ℝ).length ∧
    (∀ e ∈ profileExR.err, 0 < e) ∧
    weightedRSS profileExR.val profileExR.err [1, 1]
        (calculate_scale profileExR [1, 1])
      ≤ weightedRSS profileExR.val profileExR.err [1, 1] 0 :=
  ⟨rfl, by simp [profileExR],
    (calculate_scale_minimizes profileExR [1, 1] rfl rfl
      (by simp [profileExR])).2.1 0⟩

/-- Dividing every summand by a constant divides the sum. -/
theorem sum_map_div {α : Type} (l : List α) (f : α → ℝ) (c : ℝ) :
    (l.map (fun x => f x / c)).sum = (l.map f).sum / c := by
  induction l with
  | nil => simp
  | cons a t ih => simp [ih, add_div]

/-- Scaling measurements and uncertainties by `c` divides the scale
numerator by `c`. -/
theorem scaleNum_scaled (val err cal : List ℝ) (c : ℝ) :
    scaleNum (val.map (fun v => c * v)) (err.map (fun e => c * e)) cal
      = scaleNum val err cal / c := by
  induction cal generalizing val err with
  | nil => simp [scaleNum]
  | cons x cs ih =>
    cases val with
    | nil => simp [scaleNum]
    | cons v vs =>
      cases err with
      | nil => simp [scaleNum]
      | cons e es =>
        simp only [List.map_cons]
        rw [scaleNum_cons, scaleNum_cons, ih vs es, add_div]
        congr 1
        rcases eq_or_ne e 0 with rfl | hne
        · simp
        · rcases eq_or_ne c 0 with rfl | hc
          · simp
          · field_simp
            ring

/-- Scaling the uncertainties by `c` divides the scale denominator by
`c²`. -/
theorem scaleDen_scaled (err cal : List ℝ) (c : ℝ) :
    scaleDen (err.map (fun e => c * e)) cal = scaleDen err cal / c ^ 2 := by
  induction cal generalizing err with
  | nil => simp [scaleDen]
  | cons x cs ih =>
    cases err with
    | nil => simp [scaleDen]
    | cons e es =>
      simp only [List.map_cons]
      rw [scaleDen_cons, scaleDen_cons, ih es, add_div]
      congr 1
      rw [div_pow, mul_pow, div_pow, div_div, mul_comm (c ^ 2) (e ^ 2)]

/-- Quotient arithmetic of the two scalings: `(B/c)/(A/c²) = c·(B/A)`. -/
theorem div_div_scale (B A c : ℝ) (hc : c ≠ 0) :
    (B / c) / (A / c ^ 2) = c * (B / A) := by
  rcases eq_or_ne A 0 with rfl | hA
  · simp
  · field_simp
    ring

/-- C6: prediction is scale-covariant — multiplying all measured
intensities and all uncertainties by a positive constant `c` multiplies
the fitted scale factor by exactly `c`, while the unscaled predicted
curve (the cached observable function) is unchanged. -/
theorem calculate_scale_covariant (p : CPMGProfile ℝ) (cal : List ℝ) (c : ℝ)
    (hc : 0 < c) :
    calculate_scale (scaleData c p) cal = c * calculate_scale p cal ∧
    (scaleData c p).calcUnscaled = p.calcUnscaled := by
  refine ⟨?_, rfl⟩
  have hc' : c ≠ 0 := ne_of_gt hc
  show scaleNum (p.val.map (fun v => c * v)) (p.err.map (fun e => c * e)) cal
      / scaleDen (p.err.map (fun e => c * e)) cal = _
  rw [scaleNum_scaled, scaleDen_scaled, div_div_scale _ _ _ hc']
  rfl

/-- C6 witness: concrete instance of `calculate_scale_covariant` on
`profileExR` with `c = 2`. -/
theorem calculate_scale_covariant_witness :
    (0 : ℝ) < 2 ∧
    calculate_scale (scaleData 2 profileExR) [1, 1]
      = 2 * calculate_scale profileExR [1, 1] :=
  ⟨two_pos, (calculate_scale_covariant profileExR [1, 1] 2 two_pos).1⟩

/-- C10: `calculate_scale` divides by `Σ((cal/err)²)` with no guard — on
an identically zero predicted curve the denominator is zero (so the
division is not well defined over the reals; the floating-point run
produces a non-finite value), while on any curve with at least one
non-zero predicted value and strictly positive uncertainties the
denominator is strictly positive and the division is safe. -/
theorem scaleDen_no_guard (err cal : List ℝ) (hlen : err.length = cal.length)
    (hpos : ∀ e ∈ err, 0 < e) :
    ((∀ x ∈ cal, x = 0) → scaleDen err cal = 0) ∧
    ((∃ x ∈ cal, x ≠ 0) → 0 < scaleDen err cal) := by
  constructor
  · intro hz
    apply List.sum_eq_zero
    intro y hy
    obtain ⟨z, hz2, rfl⟩ := List.mem_map.mp hy
    have : z.1 = 0 := hz z.1 (List.of_mem_zip hz2).1
    simp [this]
  · intro hex
    induction cal generalizing err with
    | nil =>
      obtain ⟨x, hx, _⟩ := hex
      simp at hx
    | cons x cs ih =>
      cases err with
      | nil => simp at hlen
      | cons e es =>
        have hlen' : es.length = cs.length := by simpa using hlen
        have hepos : 0 < e := hpos e (List.mem_cons_self e es)
        rw [scaleDen_cons]
        rcases eq_or_ne x 0 with rfl | hx0
        · obtain ⟨y, hy, hyne⟩ := hex
          have hy' : y ∈ cs := by
            rcases List.mem_cons.mp hy with rfl | h
            · exact absurd rfl hyne
            · exact h
          have := ih es hlen'
            (fun z hz => hpos z (List.mem_cons_of_mem e hz)) ⟨y, hy', hyne⟩
          have hnn : (0 : ℝ) ≤ ((0 : ℝ) / e) ^ 2 := sq_nonneg _
          linarith
        · have hpos1 : 0 < (x / e) ^ 2 := by
            rw [sq]
            exact mul_self_pos.mpr (div_ne_zero hx0 (ne_of_gt hepos))
          have hnn := scaleDen_nonneg es cs
          linarith

/-- C10 witness: concrete instance of `scaleDen_no_guard` — one point
with predicted value 1 and uncertainty 1 gives a strictly positive
denominator. -/
theorem scaleDen_no_guard_witness :
    (∀ e ∈ ([1] : List ℝ), 0 < e) ∧
    0 < scaleDen ([1] : List ℝ) ([1] : List ℝ) :=
  ⟨by simp, (scaleDen_no_guard [1] [1] rfl (by simp)).2 ⟨1, by simp, one_ne_zero⟩⟩

/-- C4 counterexample: on a profile whose cycle counts are `[4, 0, 2]`
(not sorted), the identity draw — a legitimate with-replacement draw from
each pool — yields a resampled profile whose cycle counts are again
`[4, 0, 2]`: the drawn indexes are sorted, not the cycle-count values,
so the output cycle counts are not in non-decreasing order. -/
theorem make_bs_profile_order_cex :
    (∀ x ∈ choiceIdentity (bsPool1 bsProfileEx) (bsPool1 bsProfileEx).length,
      x ∈ bsPool1 bsProfileEx) ∧
    (∀ x ∈ choiceIdentity (bsPool2 bsProfileEx) (bsPool2 bsProfileEx).length,
      x ∈ bsPool2 bsProfileEx) ∧
    (make_bs_profile bsProfileEx choiceIdentity).ncycs = [4, 0, 2] ∧
    ¬ List.Sorted (· ≤ ·) (make_bs_profile bsProfileEx choiceIdentity).ncycs :=
  ⟨by decide, by decide, by decide, by decide⟩

/-- A predicate true on every element makes `countP` count everything. -/
theorem countP_full (pr : ℕ → Bool) (l : List ℕ) (h : ∀ a ∈ l, pr a = true) :
    l.countP pr = l.length := by
  induction l with
  | nil => simp
  | cons a t ih =>
    rw [List.countP_cons, ih (fun x hx => h x (List.mem_cons_of_mem a hx)),
      h a (List.mem_cons_self a t)]
    simp

/-- A predicate false on every element makes `countP` count nothing. -/
theorem countP_none (pr : ℕ → Bool) (l : List ℕ) (h : ∀ a ∈ l, pr a = false) :
    l.countP pr = 0 := by
  induction l with
  | nil => simp
  | cons a t ih =>
    rw [List.countP_cons, ih (fun x hx => h x (List.mem_cons_of_mem a hx)),
      h a (List.mem_cons_self a t)]
    simp

/-- Counting the positions of a list whose entry satisfies a predicate is
counting the entries satisfying it. -/
theorem filter_range_getD_length (l : List ℤ) (pr : ℤ → Bool) :
    ((List.range l.length).filter (fun i => pr (l.getD i 0))).length
      = l.countP pr := by
  induction l with
  | nil => simp
  | cons a t ih =>
    rw [List.length_cons, List.range_succ_eq_map, List.filter_cons]
    have hmapfilter :
        ((List.range t.length).map Nat.succ).filter
            (fun i => pr ((a :: t).getD i 0))
          = ((List.range t.length).filter
              (fun i => pr (t.getD i 0))).map Nat.succ := by
      rw [List.filter_map]
      rfl
    by_cases hpa : pr a = true
    · simp only [List.getD_cons_zero, hpa, if_pos]
      rw [List.length_cons, hmapfilter, List.length_map, ih,
        List.countP_cons, hpa]
      simp [Nat.add_comm]
    · have hpa' : pr a = false := by
        cases h : pr a
        · rfl
        · exact absurd h hpa
      simp only [List.getD_cons_zero, hpa', Bool.false_eq_true, if_neg,
        not_false_iff]
      rw [hmapfilter, List.length_map, ih, List.countP_cons, hpa']
      simp

/-- A list splits into the elements satisfying a predicate and those
violating it. -/
theorem countP_split (pr : ℕ → Bool) (l : List ℕ) :
    l.countP pr + l.countP (fun a => !(pr a)) = l.length := by
  induction l with
  | nil => simp
  | cons a t ih =>
    rw [List.countP_cons, List.countP_cons]
    cases h : pr a <;> simp [h] <;> omega

/-- `getD` through a `map` at an in-range position. -/
theorem getD_map_lt {β : Type} (f : ℕ → β) (l : List ℕ) (k : ℕ)
    (h : k < l.length) (d : β) :
    (l.map f).getD k d = f (l.getD k 0) := by
  rw [List.getD_eq_getElem _ _ (by simpa using h), List.getD_eq_getElem _ _ h,
    List.getElem_map]

/-- C4 (amended): for every profile and every draw oracle producing
`len(pool)` indexes from each pool, `make_bs_profile` returns a profile
with exactly the same number of reference points (cycle count 0) and,
the total length being preserved, the same number of non-reference
points; every output `(ncyc, tau_cp, val, err)` tuple is a copy of some
input tuple (reference and non-reference pools resampled separately,
with replacement); and the drawn indexes are sorted ascending, so the
output cycle counts are in non-decreasing order whenever the input cycle
counts are. -/
theorem make_bs_profile_spec {K : Type} [LinearOrderedField K]
    (p : CPMGProfile K) (choice : List ℕ → ℕ → List ℕ)
    (h1m : ∀ x ∈ choice (bsPool1 p) (bsPool1 p).length, x ∈ bsPool1 p)
    (h1l : (choice (bsPool1 p) (bsPool1 p).length).length = (bsPool1 p).length)
    (h2m : ∀ x ∈ choice (bsPool2 p) (bsPool2 p).length, x ∈ bsPool2 p)
    (h2l : (choice (bsPool2 p) (bsPool2 p).length).length = (bsPool2 p).length)
    (hn : p.ncycs.length = p.val.length) :
    ((make_bs_profile p choice).ncycs.countP (fun z => z == 0)
      = p.ncycs.countP (fun z => z == 0)) ∧
    ((make_bs_profile p choice).ncycs.length = p.ncycs.length) ∧
    (∀ k, k < (make_bs_profile p choice).ncycs.length →
      ∃ j, j < p.val.length ∧
        (make_bs_profile p choice).ncycs.getD k 0 = p.ncycs.getD j 0 ∧
        (make_bs_profile p choice).tau_cp_list.getD k 0 = p.tau_cp_list.getD j 0 ∧
        (make_bs_profile p choice).val.getD k 0 = p.val.getD j 0 ∧
        (make_bs_profile p choice).err.getD k 0 = p.err.getD j 0) ∧
    (List.Sorted (· ≤ ·) p.ncycs →
      List.Sorted (· ≤ ·) (make_bs_profile p choice).ncycs) := by
  classical
  set bs1 : List ℕ :=
    (if (bsPool1 p).length ≠ 0 then choice (bsPool1 p) (bsPool1 p).length
     else []) with hbs1
  set bs2 : List ℕ := choice (bsPool2 p) (bsPool2 p).length with hbs2
  set bs : List ℕ := bs1 ++ bs2 with hbs
  set bsS : List ℕ := List.insertionSort (· ≤ ·) bs with hbsS
  have hnc : (make_bs_profile p choice).ncycs
      = bsS.map (fun i => p.ncycs.getD i 0) := rfl
  have htc : (make_bs_profile p choice).tau_cp_list
      = bsS.map (fun i => p.tau_cp_list.getD i 0) := rfl
  have hvc : (make_bs_profile p choice).val
      = bsS.map (fun i => p.val.getD i 0) := rfl
  have hec : (make_bs_profile p choice).err
      = bsS.map (fun i => p.err.getD i 0) := rfl
  have hperm : bsS.Perm bs := List.perm_insertionSort _ bs
  have hsorted : List.Sorted (· ≤ ·) bsS := List.sorted_insertionSort _ bs
  have hb1mem : ∀ x ∈ bs1, x ∈ bsPool1 p := by
    intro x hx
    rw [hbs1] at hx
    by_cases h0 : (bsPool1 p).length ≠ 0
    · rw [if_pos h0] at hx
      exact h1m x hx
    · rw [if_neg h0] at hx
      simp at hx
  have hb1len : bs1.length = (bsPool1 p).length := by
    rw [hbs1]
    by_cases h0 : (bsPool1 p).length ≠ 0
    · rw [if_pos h0, h1l]
    · rw [if_neg h0]
      simp only [List.length_nil]
      omega
  have hmem_lt : ∀ x ∈ bs, x < p.val.length := by
    intro x hx
    rcases List.mem_append.mp hx with h | h
    · have := hb1mem x h
      have := List.mem_range.mp (List.mem_filter.mp this).1
      exact this
    · have := h2m x h
      have := List.mem_range.mp (List.mem_filter.mp this).1
      exact this
  have hb1all : ∀ x ∈ bs1, (fun i => p.ncycs.getD i 0 == 0) x = true := by
    intro x hx
    exact (List.mem_filter.mp (hb1mem x hx)).2
  have hb2all : ∀ x ∈ bs2, (fun i => p.ncycs.getD i 0 == 0) x = false := by
    intro x hx
    have := (List.mem_filter.mp (h2m x hx)).2
    simpa using this
  refine ⟨?_, ?_, ?_, ?_⟩
  · rw [hnc, List.countP_map, hperm.countP_eq, hbs, List.countP_append]
    have c1 : bs1.countP ((fun z => z == 0) ∘ fun i => p.ncycs.getD i 0)
        = bs1.length := countP_full _ _ hb1all
    have c2 : bs2.countP ((fun z => z == 0) ∘ fun i => p.ncycs.getD i 0)
        = 0 := countP_none _ _ hb2all
    rw [c1, c2, hb1len, Nat.add_zero]
    have := filter_range_getD_length p.ncycs (fun z => z == 0)
    rw [← this]
    unfold bsPool1
    rw [hn]
  · rw [hnc, List.length_map, hperm.length_eq, hbs, List.length_append,
      hb1len, h2l]
    have h12 : (bsPool1 p).length + (bsPool2 p).length = p.val.length := by
      unfold bsPool1 bsPool2
      rw [← List.countP_eq_length_filter, ← List.countP_eq_length_filter,
        countP_split (fun i => p.ncycs.getD i 0 == 0) (List.range p.val.length),
        List.length_range]
    rw [h12, hn]
  · intro k hk
    rw [hnc, List.length_map] at hk
    refine ⟨bsS.getD k 0, ?_, ?_, ?_, ?_, ?_⟩
    · apply hmem_lt
      rw [← hperm.mem_iff]
      rw [List.getD_eq_getElem _ _ hk]
      exact List.getElem_mem hk
    · rw [hnc, getD_map_lt _ _ _ hk]
    · rw [htc, getD_map_lt _ _ _ hk]
    · rw [hvc, getD_map_lt _ _ _ hk]
    · rw [hec, getD_map_lt _ _ _ hk]
  · intro hin
    rw [hnc]
    rw [List.Sorted, List.pairwise_map]
    rw [List.pairwise_iff_getElem]
    intro i j hi hj hij
    have hle : bsS[i] ≤ bsS[j] := by
      have := List.pairwise_iff_getElem.mp hsorted i j hi hj hij
      exact this
    have hibd : bsS[i] < p.ncycs.length := by
      rw [hn]
      apply hmem_lt
      rw [← hperm.mem_iff]
      exact List.getElem_mem hi
    have hjbd : bsS[j] < p.ncycs.length := by
      rw [hn]
      apply hmem_lt
      rw [← hperm.mem_iff]
      exact List.getElem_mem hj
    rcases Nat.lt_or_ge bsS[i] bsS[j] with hlt | hge
    · have := List.pairwise_iff_getElem.mp hin bsS[i] bsS[j] hibd hjbd hlt
      rw [List.getD_eq_getElem _ _ hibd, List.getD_eq_getElem _ _ hjbd]
      exact this
    · have heq : bsS[i] = bsS[j] := le_antisymm hle hge
      rw [heq]

/-- C4 witness: concrete instance of `make_bs_profile_spec` on the
sorted profile `bsProfileSorted` with the identity draw. -/
theorem make_bs_profile_spec_witness :
    bsProfileSorted.ncycs.length = bsProfileSorted.val.length ∧
    List.Sorted (· ≤ ·) bsProfileSorted.ncycs ∧
    List.Sorted (· ≤ ·)
      (make_bs_profile bsProfileSorted choiceIdentity).ncycs ∧
    (make_bs_profile bsProfileSorted choiceIdentity).ncycs.countP
        (fun z => z == 0)
      = bsProfileSorted.ncycs.countP (fun z => z == 0) :=
  ⟨rfl, by decide,
    (make_bs_profile_spec bsProfileSorted choiceIdentity (by decide)
      (by decide) (by decide) (by decide) rfl).2.2.2 (by decide),
    (make_bs_profile_spec bsProfileSorted choiceIdentity (by decide)
      (by decide) (by decide) (by decide) rfl).1⟩
